import Mathlib

/-!
Verification of the RustCZT chirp-z-transform library against its
natural-language specification.

The development shallowly embeds the Rust sources:

* `bluesteins` — the Bluestein engine of `src/bluesteins.rs`
  (`BluesteinsAlgorithm::new` and its `Czt` implementation,
  `process_with_scratch` / `get_scratch_len`), together with the
  default `Czt::process` of `src/lib.rs`.
* `plan` — the planner of `src/plan.rs` (`CztPlannerScalar::plan_czt_forward`,
  `plan_zoom_fft`) and the legacy engine duplicated there.
* `naive` — the reference engine of `src/naive_czt.rs`.

Floating-point complex arithmetic is embedded as exact arithmetic on `ℂ`;
machine `usize` values become `ℕ`, with Rust's panicking subtractions and
assertions made explicit (`Option`, `none` = panic).  The external
convolution provider (rustfft) is modelled from the spec as the
unnormalized forward discrete Fourier transform.
-/

open Finset in
/-- Modelled from the spec: the external convolution provider (rustfft)
applies the unnormalized forward DFT, `X k = ∑ j, x j · e^(-2πi·j·k/L)`.
We write the twiddle factor as a power of the basic root `zeta L`. -/
noncomputable def zeta (L : ℕ) : ℂ :=
  Complex.exp (-(2 * Real.pi * Complex.I) / L)

open Finset in
/-- Modelled from the spec: pointwise unnormalized forward DFT of length `L`
of the sequence `f`, evaluated at frequency `k`. -/
noncomputable def dftPt (L : ℕ) (f : ℕ → ℂ) (k : ℕ) : ℂ :=
  ∑ j ∈ Finset.range L, f j * zeta L ^ (j * k)

/-- In-place DFT of a complex buffer (rustfft `Fft::process` /
`process_with_scratch` on a buffer whose length is the plan length). -/
noncomputable def dftList (L : ℕ) (v : List ℂ) : List ℂ :=
  (List.range v.length).map (fun k => dftPt L (fun j => v.getD j 0) k)

/-- Embeds `num_complex::Complex::powf` for a nonzero base: `x.powf t = exp (t · log x)`
(polar form `(r, θ) ↦ (r^t, tθ)`). -/
noncomputable def cpowf (x : ℂ) (t : ℝ) : ℂ :=
  Complex.exp (t * Complex.log x)

/-- Embeds `square_and_half` from `src/bluesteins.rs`: `n ↦ (n·n : i32) / 2` computed
in the floating-point type, i.e. an exact real half-square. -/
noncomputable def square_and_half (n : ℤ) : ℝ :=
  ((n * n : ℤ) : ℝ) / 2

/-- Rust `usize::next_power_of_two`, via an explicit structurally recursive
search (fuel = the argument): the least power of two that is `≥ max n 1`. -/
def nextPowerOfTwoAux : ℕ → ℕ → ℕ
  | 0, _ => 1
  | fuel + 1, n => if n ≤ 1 then 1 else 2 * nextPowerOfTwoAux fuel ((n + 1) / 2)

/-- Rust `usize::next_power_of_two`. -/
def nextPowerOfTwo (n : ℕ) : ℕ :=
  nextPowerOfTwoAux n n

namespace bluesteins

/-- The Bluestein engine of `src/bluesteins.rs`.  The coefficient vectors are
the stored fields; the fft plan is represented by the length it was built for
(`fftLen = fft_forward.len()`) and its in-place scratch requirement
(`fftScratchLen = fft_forward.get_inplace_scratch_len()`, an opaque value of
the external provider, carried as data). -/
structure BluesteinsAlgorithm where
  y_coefficients : List ℂ
  v_coefficients : List ℂ
  x_coefficients : List ℂ
  fftLen : ℕ
  fftScratchLen : ℕ

/-- Embeds `compute_y_coefficients` of `src/bluesteins.rs`:
`Y n = a^(-n) · w.powf (n²/2)` for `n ∈ [0, N)`. -/
noncomputable def yCoeffs (n : ℕ) (a w : ℂ) : List ℂ :=
  (List.range n).map (fun (i : ℕ) => a ^ (-(i : ℤ)) * cpowf w (square_and_half i))

/-- The pre-FFT kernel built inside `compute_v_coefficients` of
`src/bluesteins.rs`: the chain of the three index ranges
`(0..m)`, `(m..l-n+1)`, `(l-n+1..l)`. -/
noncomputable def cKernel (l m n : ℕ) (w : ℂ) : List ℂ :=
  (List.range m).map (fun (i : ℕ) => cpowf w (-square_and_half i))
    ++ (List.range (l - n + 1 - m)).map (fun _ => (0 : ℂ))
    ++ (List.range (l - (l - n + 1))).map
        (fun j => cpowf w (-square_and_half ((l - (l - n + 1 + j) : ℕ) : ℤ)))

/-- Embeds `compute_v_coefficients` of `src/bluesteins.rs`: the forward transform of
the kernel, computed once at construction. -/
noncomputable def vCoeffs (l m n : ℕ) (w : ℂ) : List ℂ :=
  dftList l (cKernel l m n w)

/-- Embeds `compute_x_coefficients` of `src/bluesteins.rs`:
`X k = w.powf (k²/2)` for `k ∈ [0, M)`. -/
noncomputable def xCoeffs (m : ℕ) (w : ℂ) : List ℂ :=
  (List.range m).map (fun (k : ℕ) => cpowf w (square_and_half k))

/-- Embeds `BluesteinsAlgorithm::new` of `src/bluesteins.rs`.  Here `none` models a panic:
the `usize` expression `m + n - 1` underflows when `n = m = 0`, and `l - n`
inside `compute_v_coefficients` underflows when `n > l`. -/
noncomputable def mkNew (n m : ℕ) (a w : ℂ) (fftScratchLen : ℕ) :
    Option BluesteinsAlgorithm :=
  if n + m = 0 then none
  else if nextPowerOfTwo (m + n - 1) < n then none
  else some
    { y_coefficients := yCoeffs n a w
      v_coefficients := vCoeffs (nextPowerOfTwo (m + n - 1)) m n w
      x_coefficients := xCoeffs m w
      fftLen := nextPowerOfTwo (m + n - 1)
      fftScratchLen := fftScratchLen }

/-- Accessor `n()` of the engine: `y_coefficients.len()`. -/
def BluesteinsAlgorithm.n (e : BluesteinsAlgorithm) : ℕ :=
  e.y_coefficients.length

/-- Accessor `m()` of the engine: `x_coefficients.len()`. -/
def BluesteinsAlgorithm.m (e : BluesteinsAlgorithm) : ℕ :=
  e.x_coefficients.length

/-- Accessor `l()` of the engine: `fft_forward.len()`. -/
def BluesteinsAlgorithm.l (e : BluesteinsAlgorithm) : ℕ :=
  e.fftLen

/-- Embeds `get_scratch_len()`: the provider's in-place scratch requirement plus `l`. -/
def scratchLen (e : BluesteinsAlgorithm) : ℕ :=
  e.fftScratchLen + e.fftLen

/-- The expand step of `process_with_scratch`
(`src/bluesteins.rs`, the two loops preceding the first forward transform):
the first `l` scratch cells become `buffer[i] · Y[i]` for `i < n`
and `0` for `n ≤ i < l`. -/
noncomputable def expandedList (e : BluesteinsAlgorithm) (b : List ℂ) : List ℂ :=
  (List.range e.fftLen).map
    (fun i => if i < e.y_coefficients.length then b.getD i 0 * e.y_coefficients.getD i 0 else 0)

/-- The spectral-combine step of `process_with_scratch`:
`work[i] = conj (work[i] · V[i])`. -/
noncomputable def combinedList (e : BluesteinsAlgorithm) (w1 : List ℂ) : List ℂ :=
  (List.range e.fftLen).map
    (fun i => (starRingEnd ℂ) (w1.getD i 0 * e.v_coefficients.getD i 0))

/-- Embeds `BluesteinsAlgorithm::process_with_scratch` of `src/bluesteins.rs`.
`none` models a panic: the two entry `assert_eq!`s demand
`buffer.len() == n()` and `scratch.len() == get_scratch_len()`, and the
extract loop writes `buffer[0..m)`, which is out of bounds when `m > n`. -/
noncomputable def processWithScratch (e : BluesteinsAlgorithm) (b s : List ℂ) :
    Option (List ℂ) :=
  if b.length ≠ e.y_coefficients.length then none
  else if s.length ≠ scratchLen e then none
  else if e.x_coefficients.length ≤ b.length then
    some ((List.range b.length).map
      (fun k => if k < e.x_coefficients.length then
          (starRingEnd ℂ)
              ((dftList e.fftLen
                (combinedList e (dftList e.fftLen (expandedList e b)))).getD k 0) *
            e.x_coefficients.getD k 0 / (e.fftLen : ℂ)
        else b.getD k 0))
  else none

/-- The provided `Czt::process` of `src/lib.rs`: allocate a zero scratch of
length `buffer.len()` and delegate to `process_with_scratch`. -/
noncomputable def process (e : BluesteinsAlgorithm) (b : List ℂ) : Option (List ℂ) :=
  processWithScratch e b (List.replicate b.length 0)

end bluesteins

open Finset in
/-- The direct chirp-z definition of the spec (§8):
`X k = ∑ n ∈ [0, N), x n · A⁻ⁿ · Wⁿᵏ`. -/
noncomputable def cztDirect (N : ℕ) (a w : ℂ) (x : ℕ → ℂ) (k : ℕ) : ℂ :=
  ∑ n ∈ Finset.range N, x n * a ^ (-(n : ℤ)) * w ^ (n * k)

namespace naive

/-- The reference engine of `src/naive_czt.rs`. -/
structure NaiveCzt where
  a : ℂ
  w : ℂ
  czt_size : ℕ

/-- Embeds `NaiveCzt::new`. -/
def NaiveCzt.new (czt_size : ℕ) (a w : ℂ) : NaiveCzt :=
  { a := a, w := w, czt_size := czt_size }

/-- Embeds `get_scratch_len()` of the reference engine: `czt_size`. -/
def getScratchLen (e : NaiveCzt) : ℕ :=
  e.czt_size

/-- The inner loop of `NaiveCzt::process_with_scratch`:
`scratch[k] = scratch[k] + buffer[n] * z.powi(-n)` for `n ∈ [0, czt_size)`,
accumulating from `init` (the incoming `scratch[k]`). -/
noncomputable def innerLoop (z : ℂ) (b : List ℂ) (size : ℕ) (init : ℂ) : ℂ :=
  (List.range size).foldl (fun acc (n : ℕ) => acc + b.getD n 0 * z ^ (-(n : ℤ))) init

/-- The outer loop of `NaiveCzt::process_with_scratch` over `k ∈ [0, czt_size)`,
with `z = a * w.powi(-k)`. -/
noncomputable def scratchLoop (e : NaiveCzt) (b s : List ℂ) : List ℂ :=
  (List.range e.czt_size).foldl
    (fun l (i : ℕ) => l.set i (innerLoop (e.a * e.w ^ (-(i : ℤ))) b e.czt_size (l.getD i 0))) s

/-- The copy-back loop of `NaiveCzt::process_with_scratch`:
`buffer[k] = scratch[k]` for `k ∈ [0, czt_size)`. -/
noncomputable def copyLoop (size : ℕ) (s b : List ℂ) : List ℂ :=
  (List.range size).foldl (fun l i => l.set i (s.getD i 0)) b

/-- The successful run of `NaiveCzt::process_with_scratch`. -/
noncomputable def naiveRun (e : NaiveCzt) (b s : List ℂ) : List ℂ :=
  copyLoop e.czt_size (scratchLoop e b s) b

/-- Embeds `NaiveCzt::process_with_scratch` of `src/naive_czt.rs`; `none` models the
out-of-bounds panic when `czt_size` exceeds either buffer length. -/
noncomputable def processWithScratch (e : NaiveCzt) (b s : List ℂ) : Option (List ℂ) :=
  if e.czt_size ≤ b.length ∧ e.czt_size ≤ s.length then some (naiveRun e b s) else none

end naive

namespace plan

/-- The legacy engine duplicated in `src/plan.rs` (`BluesteinsAlgorithm` there);
it holds forward and backward plans of the single length `czt_len`. -/
structure BluesteinsAlgorithm where
  y_coefficients : List ℂ
  v_coefficients : List ℂ
  x_coefficients : List ℂ
  cztLen : ℕ

/-- Embeds `compute_y_coefficients` of `src/plan.rs`: `a.powi(-n) * w.powi(n*n/2)`
with truncating `i32` division in the exponent. -/
noncomputable def yCoeffs (n : ℕ) (a w : ℂ) : List ℂ :=
  (List.range n).map (fun (i : ℕ) => a ^ (-(i : ℤ)) * w ^ (i * i / 2))

/-- The pre-FFT sequence of `compute_v_coefficients` of `src/plan.rs`:
`w.powi(-(n*n)/2)`. -/
noncomputable def cList (n : ℕ) (w : ℂ) : List ℂ :=
  (List.range n).map (fun (i : ℕ) => w ^ (-((i * i / 2 : ℕ) : ℤ)))

/-- Embeds `compute_v_coefficients` of `src/plan.rs`. -/
noncomputable def vCoeffs (n : ℕ) (w : ℂ) : List ℂ :=
  dftList n (cList n w)

/-- Embeds `compute_x_coefficients` of `src/plan.rs`: `w.powu(k*k/2)`. -/
noncomputable def xCoeffs (m : ℕ) (w : ℂ) : List ℂ :=
  (List.range m).map (fun k => w ^ (k * k / 2))

/-- Embeds `BluesteinsAlgorithm::new` of `src/plan.rs` (plans of length `czt_len`). -/
noncomputable def new (czt_len : ℕ) (a w : ℂ) : BluesteinsAlgorithm :=
  { y_coefficients := yCoeffs czt_len a w
    v_coefficients := vCoeffs czt_len w
    x_coefficients := xCoeffs czt_len w
    cztLen := czt_len }

/-- Embeds `CztPlannerScalar::plan_czt_forward` of `src/plan.rs`: plan length-`czt_len`
forward and backward transforms and construct the engine. -/
noncomputable def plan_czt_forward (czt_len : ℕ) (a w : ℂ) : BluesteinsAlgorithm :=
  new czt_len a w

/-- Embeds `num_complex::Complex::from_polar`: `(r, θ) ↦ r·cos θ + r·sin θ·i`. -/
noncomputable def fromPolar (r θ : ℝ) : ℂ :=
  { re := r * Real.cos θ, im := r * Real.sin θ }

/-- Embeds `CztPlannerScalar::plan_zoom_fft` of `src/plan.rs`:
`a = from_polar(1, 2π·start)`, `w = from_polar(1, -2π·(end-start)/(czt_len-1))`,
then delegate to `plan_czt_forward`. -/
noncomputable def plan_zoom_fft (czt_len : ℕ) (s e : ℝ) : BluesteinsAlgorithm :=
  plan_czt_forward czt_len (fromPolar 1 (2 * Real.pi * s))
    (fromPolar 1 (-(2 * Real.pi) * (e - s) / ((czt_len - 1 : ℕ) : ℝ)))

end plan

namespace bluesteins

/-- A concrete engine, `BluesteinsAlgorithm::new(1, 1, 1, 1)` with a provider
whose in-place scratch requirement is `0`; used to instantiate theorems. -/
noncomputable def e11 : BluesteinsAlgorithm :=
  { y_coefficients := yCoeffs 1 1 1
    v_coefficients := vCoeffs (nextPowerOfTwo 1) 1 1 1
    x_coefficients := xCoeffs 1 1
    fftLen := nextPowerOfTwo 1
    fftScratchLen := 0 }

/-- A concrete engine, `BluesteinsAlgorithm::new(2, 2, 1, 1)` with a provider
whose in-place scratch requirement is `0`; used to instantiate theorems. -/
noncomputable def e22 : BluesteinsAlgorithm :=
  { y_coefficients := yCoeffs 2 1 1
    v_coefficients := vCoeffs (nextPowerOfTwo 3) 2 2 1
    x_coefficients := xCoeffs 2 1
    fftLen := nextPowerOfTwo 3
    fftScratchLen := 0 }

end bluesteins

/-! ## Shared auxiliary lemmas -/

theorem getD_range_map (f : ℕ → ℂ) (L i : ℕ) :
    ((List.range L).map f).getD i 0 = if i < L then f i else 0 := by
  by_cases h : i < L
  · rw [List.getD_eq_getElem _ _ (by simpa using h)]
    simp [h]
  · rw [List.getD_eq_default _ _ (by simpa using Nat.le_of_not_lt h)]
    simp [h]

theorem nextPowerOfTwoAux_spec :
    ∀ fuel n, n ≤ fuel →
      (∃ k, nextPowerOfTwoAux fuel n = 2 ^ k) ∧ n ≤ nextPowerOfTwoAux fuel n ∧
        ∀ j, n ≤ 2 ^ j → nextPowerOfTwoAux fuel n ≤ 2 ^ j := by
  intro fuel
  induction fuel with
  | zero =>
    intro n hn
    have hn0 : n = 0 := Nat.le_zero.mp hn
    subst hn0
    exact ⟨⟨0, rfl⟩, by simp [nextPowerOfTwoAux], fun j _ => Nat.one_le_pow _ _ (by norm_num)⟩
  | succ f ih =>
    intro n hn
    by_cases h1 : n ≤ 1
    · have hunf1 : nextPowerOfTwoAux (f + 1) n = 1 := by
        simp [nextPowerOfTwoAux, h1]
      exact ⟨⟨0, by rw [hunf1, pow_zero]⟩, by rw [hunf1]; omega,
        fun j _ => by rw [hunf1]; exact Nat.one_le_pow _ _ (by norm_num)⟩
    · have hm : (n + 1) / 2 ≤ f := by omega
      obtain ⟨⟨k, hk⟩, hge, hmin⟩ := ih ((n + 1) / 2) hm
      have hunf : nextPowerOfTwoAux (f + 1) n = 2 * nextPowerOfTwoAux f ((n + 1) / 2) := by
        simp [nextPowerOfTwoAux, h1]
      refine ⟨⟨k + 1, by rw [hunf, hk, pow_succ]; ring⟩, by rw [hunf]; omega, ?_⟩
      intro j hj
      have hj1 : 1 ≤ j := by
        rcases Nat.eq_zero_or_pos j with h | h
        · exfalso
          subst h
          norm_num at hj
          omega
        · exact h
      obtain ⟨j', rfl⟩ : ∃ j', j = j' + 1 := ⟨j - 1, by omega⟩
      have h2j : (n + 1) / 2 ≤ 2 ^ j' := by
        rw [pow_succ] at hj
        omega
      have := hmin j' h2j
      rw [hunf, pow_succ]
      omega

theorem nextPowerOfTwo_spec (n : ℕ) :
    (∃ k, nextPowerOfTwo n = 2 ^ k) ∧ n ≤ nextPowerOfTwo n ∧
      ∀ j, n ≤ 2 ^ j → nextPowerOfTwo n ≤ 2 ^ j :=
  nextPowerOfTwoAux_spec n n le_rfl

namespace bluesteins

theorem length_yCoeffs (n : ℕ) (a w : ℂ) : (yCoeffs n a w).length = n := by
  rw [yCoeffs, List.length_map, List.length_range]

theorem length_xCoeffs (m : ℕ) (w : ℂ) : (xCoeffs m w).length = m := by
  rw [xCoeffs, List.length_map, List.length_range]

theorem length_dftList (L : ℕ) (v : List ℂ) : (dftList L v).length = v.length := by
  rw [dftList, List.length_map, List.length_range]

theorem length_cKernel (l m n : ℕ) (w : ℂ) (hn : 1 ≤ n) (hnl : n ≤ l)
    (hnm : n + m - 1 ≤ l) : (cKernel l m n w).length = l := by
  rw [cKernel, List.length_append, List.length_append, List.length_map, List.length_map,
    List.length_map, List.length_range, List.length_range, List.length_range]
  omega

theorem mkNew_eq_some {n m : ℕ} {a w : ℂ} {fs : ℕ} {e : BluesteinsAlgorithm}
    (h : mkNew n m a w fs = some e) :
    e = { y_coefficients := yCoeffs n a w
          v_coefficients := vCoeffs (nextPowerOfTwo (m + n - 1)) m n w
          x_coefficients := xCoeffs m w
          fftLen := nextPowerOfTwo (m + n - 1)
          fftScratchLen := fs } ∧
      n + m ≠ 0 ∧ n ≤ nextPowerOfTwo (m + n - 1) := by
  unfold mkNew at h
  by_cases h0 : n + m = 0
  · rw [if_pos h0] at h
    exact absurd h (by simp)
  · rw [if_neg h0] at h
    by_cases h2 : nextPowerOfTwo (m + n - 1) < n
    · rw [if_pos h2] at h
      exact absurd h (by simp)
    · rw [if_neg h2] at h
      injection h with h
      exact ⟨h.symm, h0, Nat.le_of_not_lt h2⟩

end bluesteins

theorem zeta_ne_zero (L : ℕ) : zeta L ≠ 0 :=
  Complex.exp_ne_zero _

theorem two_pi_I_ne_zero : (2 * (Real.pi : ℂ) * Complex.I) ≠ 0 :=
  mul_ne_zero (mul_ne_zero two_ne_zero (Complex.ofReal_ne_zero.mpr Real.pi_ne_zero))
    Complex.I_ne_zero

theorem conj_zeta (L : ℕ) : (starRingEnd ℂ) (zeta L) = (zeta L)⁻¹ := by
  have h1 : (starRingEnd ℂ) (zeta L) = Complex.exp ((2 * Real.pi * Complex.I) / L) := by
    rw [zeta, ← Complex.exp_conj]
    congr 1
    rw [map_div₀, map_neg]
    simp [Complex.conj_I, map_ofNat]
  have h2 : Complex.exp ((2 * Real.pi * Complex.I) / L) * zeta L = 1 := by
    rw [zeta, ← Complex.exp_add]
    have harg : (2 * (Real.pi : ℂ) * Complex.I) / L + -(2 * Real.pi * Complex.I) / L = 0 := by
      ring
    rw [harg, Complex.exp_zero]
  rw [h1]
  exact eq_inv_of_mul_eq_one_left h2

theorem zeta_pow_self (L : ℕ) (hL : 1 ≤ L) : zeta L ^ L = 1 := by
  have hL0 : (L : ℂ) ≠ 0 := Nat.cast_ne_zero.mpr (by omega)
  rw [zeta, ← Complex.exp_nat_mul]
  have harg : (L : ℂ) * (-(2 * Real.pi * Complex.I) / L) = -(2 * Real.pi * Complex.I) := by
    field_simp
    ring
  rw [harg, Complex.exp_neg, Complex.exp_two_pi_mul_I, inv_one]

theorem zeta_zpow_eq_one_iff (L : ℕ) (hL : 1 ≤ L) (d : ℤ) :
    zeta L ^ d = 1 ↔ (L : ℤ) ∣ d := by
  have hL0 : (L : ℂ) ≠ 0 := Nat.cast_ne_zero.mpr (by omega)
  rw [zeta, ← Complex.exp_int_mul, Complex.exp_eq_one_iff]
  constructor
  · rintro ⟨k, hk⟩
    have key : (-(d : ℂ)) * (2 * Real.pi * Complex.I) = ((k : ℂ) * L) * (2 * Real.pi * Complex.I) := by
      field_simp at hk
      linear_combination hk
    have h3 : (-(d : ℂ)) = (k : ℂ) * L := mul_right_cancel₀ two_pi_I_ne_zero key
    have h4 : (-d : ℤ) = k * L := by exact_mod_cast h3
    exact ⟨-k, by linear_combination -h4⟩
  · rintro ⟨t, rfl⟩
    refine ⟨-t, ?_⟩
    push_cast
    field_simp
    ring

open Finset in
theorem sum_zeta_zpow (L : ℕ) (hL : 1 ≤ L) (d : ℤ) :
    ∑ j ∈ Finset.range L, (zeta L ^ d) ^ j = if (L : ℤ) ∣ d then (L : ℂ) else 0 := by
  by_cases hd : (L : ℤ) ∣ d
  · rw [if_pos hd, (zeta_zpow_eq_one_iff L hL d).mpr hd]
    simp
  · rw [if_neg hd]
    have hq : zeta L ^ d ≠ 1 := fun h => hd ((zeta_zpow_eq_one_iff L hL d).mp h)
    rw [geom_sum_eq hq]
    have hL1 : (zeta L ^ d) ^ L = 1 := by
      rw [← zpow_natCast (zeta L ^ d) L, ← zpow_mul, mul_comm, zpow_mul, zpow_natCast,
        zeta_pow_self L hL, one_zpow]
    rw [hL1, sub_self, zero_div]

theorem cpowf_add (w : ℂ) (s t : ℝ) : cpowf w s * cpowf w t = cpowf w (s + t) := by
  unfold cpowf
  rw [← Complex.exp_add]
  congr 1
  push_cast
  ring

theorem cpowf_natCast (w : ℂ) (hw : w ≠ 0) (j : ℕ) : cpowf w ((j : ℝ)) = w ^ j := by
  unfold cpowf
  rw [Complex.ofReal_natCast, Complex.exp_nat_mul, Complex.exp_log hw]

theorem zeta_term (L : ℕ) (n p i k : ℕ) :
    zeta L ^ (n * i) * zeta L ^ (p * i) * ((zeta L)⁻¹) ^ (i * k)
      = (zeta L ^ ((n : ℤ) + p - k)) ^ i := by
  have hz := zeta_ne_zero L
  rw [inv_pow, ← zpow_natCast (zeta L) (n * i), ← zpow_natCast (zeta L) (p * i),
    ← zpow_natCast (zeta L) (i * k), ← zpow_neg, ← zpow_add₀ hz, ← zpow_add₀ hz,
    ← zpow_natCast (zeta L ^ ((n : ℤ) + p - k)) i, ← zpow_mul]
  congr 1
  push_cast
  ring

theorem modIdx_lt (L : ℕ) (hL : 1 ≤ L) (d : ℤ) : (d % (L : ℤ)).toNat < L := by
  have h0 : (0 : ℤ) < L := by exact_mod_cast hL
  have h1 := Int.emod_nonneg d (by omega : (L : ℤ) ≠ 0)
  have h2 := Int.emod_lt_of_pos d h0
  omega

theorem dvd_iff_idx (L : ℕ) (hL : 1 ≤ L) (n k p : ℕ) (hp : p < L) :
    ((L : ℤ) ∣ ((n : ℤ) + p - k)) ↔ p = (((k : ℤ) - n) % L).toNat := by
  have h0 : (0 : ℤ) < L := by exact_mod_cast hL
  have hne : (L : ℤ) ≠ 0 := by omega
  have hnn := Int.emod_nonneg ((k : ℤ) - n) hne
  have hlt := Int.emod_lt_of_pos ((k : ℤ) - n) h0
  constructor
  · intro hdvd
    have h1 : ((p : ℤ) - ((k : ℤ) - n)) % L = 0 := by
      obtain ⟨t, ht⟩ := hdvd
      have hpt : (p : ℤ) - ((k : ℤ) - n) = L * t := by linear_combination ht
      simp [hpt, Int.mul_emod_right]
    have h2 : (p : ℤ) % L = ((k : ℤ) - n) % L :=
      Int.emod_eq_emod_iff_emod_sub_eq_zero.mpr h1
    have h3 : (p : ℤ) % L = p := Int.emod_eq_of_lt (by omega) (by exact_mod_cast hp)
    omega
  · intro hp0
    have h3 : ((((k : ℤ) - n) % L).toNat : ℤ) = ((k : ℤ) - n) % L := Int.toNat_of_nonneg hnn
    obtain ⟨q, hq⟩ : ∃ q, ((k : ℤ) - n) % L = (k : ℤ) - n - L * q :=
      ⟨((k : ℤ) - n) / L, by rw [Int.emod_def]⟩
    refine ⟨-q, ?_⟩
    rw [hp0, h3, hq]
    ring

open Finset in
theorem conj_dft_combine (L : ℕ) (hL : 1 ≤ L) (u c : ℕ → ℂ) (k : ℕ) :
    (starRingEnd ℂ) (dftPt L (fun i => (starRingEnd ℂ) (dftPt L u i * dftPt L c i)) k)
      = (L : ℂ) * ∑ j ∈ Finset.range L, u j * c ((((k : ℤ) - j) % (L : ℤ)).toNat) := by
  unfold dftPt
  rw [map_sum]
  have hterm : ∀ i ∈ Finset.range L,
      (starRingEnd ℂ) ((starRingEnd ℂ)
            ((∑ jj ∈ Finset.range L, u jj * zeta L ^ (jj * i)) *
              (∑ jj ∈ Finset.range L, c jj * zeta L ^ (jj * i))) * zeta L ^ (i * k))
        = ∑ nn ∈ Finset.range L, ∑ pp ∈ Finset.range L,
            u nn * c pp * (zeta L ^ ((nn : ℤ) + pp - k)) ^ i := by
    intro i _
    rw [map_mul, Complex.conj_conj, map_pow, conj_zeta]
    rw [Finset.sum_mul_sum, Finset.sum_mul]
    refine Finset.sum_congr rfl fun nn _ => ?_
    rw [Finset.sum_mul]
    refine Finset.sum_congr rfl fun pp _ => ?_
    rw [← zeta_term L nn pp i k]
    ring
  rw [Finset.sum_congr rfl hterm, Finset.sum_comm]
  have hswap : ∀ nn ∈ Finset.range L,
      (∑ i ∈ Finset.range L, ∑ pp ∈ Finset.range L,
          u nn * c pp * (zeta L ^ ((nn : ℤ) + pp - k)) ^ i)
        = ∑ pp ∈ Finset.range L,
            u nn * c pp * (if (L : ℤ) ∣ ((nn : ℤ) + pp - k) then (L : ℂ) else 0) := by
    intro nn _
    rw [Finset.sum_comm]
    refine Finset.sum_congr rfl fun pp _ => ?_
    rw [← Finset.mul_sum, sum_zeta_zpow L hL]
  rw [Finset.sum_congr rfl hswap]
  have hcollapse : ∀ nn ∈ Finset.range L,
      (∑ pp ∈ Finset.range L,
          u nn * c pp * (if (L : ℤ) ∣ ((nn : ℤ) + pp - k) then (L : ℂ) else 0))
        = (L : ℂ) * (u nn * c ((((k : ℤ) - nn) % (L : ℤ)).toNat)) := by
    intro nn _
    rw [Finset.sum_eq_single ((((k : ℤ) - nn) % (L : ℤ)).toNat)]
    · rw [if_pos ((dvd_iff_idx L hL nn k _ (modIdx_lt L hL _)).mpr rfl)]
      ring
    · intro pp hpp hne
      rw [if_neg fun hdvd =>
        hne ((dvd_iff_idx L hL nn k pp (Finset.mem_range.mp hpp)).mp hdvd), mul_zero]
    · intro hnot
      exact absurd (Finset.mem_range.mpr (modIdx_lt L hL _)) hnot
  rw [Finset.sum_congr rfl hcollapse, ← Finset.mul_sum]

theorem dftPt_congr (L : ℕ) (f g : ℕ → ℂ) (k : ℕ) (h : ∀ i < L, f i = g i) :
    dftPt L f k = dftPt L g k := by
  unfold dftPt
  exact Finset.sum_congr rfl fun i hi => by rw [h i (Finset.mem_range.mp hi)]

theorem dftList_getD (L : ℕ) (v : List ℂ) (k : ℕ) (hk : k < v.length) :
    (dftList L v).getD k 0 = dftPt L (fun j => v.getD j 0) k := by
  rw [dftList, getD_range_map, if_pos hk]

theorem dftList_map_getD (L : ℕ) (f : ℕ → ℂ) (i : ℕ) (hi : i < L) :
    (dftList L ((List.range L).map f)).getD i 0
      = dftPt L (fun j => if j < L then f j else 0) i := by
  rw [dftList_getD L _ i (by rw [List.length_map, List.length_range]; exact hi)]
  congr 1
  funext j
  exact getD_range_map f L j

namespace bluesteins

theorem yCoeffs_getD (n : ℕ) (a w : ℂ) (i : ℕ) (hi : i < n) :
    (yCoeffs n a w).getD i 0 = a ^ (-(i : ℤ)) * cpowf w (square_and_half i) := by
  rw [yCoeffs, getD_range_map, if_pos hi]

theorem xCoeffs_getD (m : ℕ) (w : ℂ) (k : ℕ) (hk : k < m) :
    (xCoeffs m w).getD k 0 = cpowf w (square_and_half k) := by
  rw [xCoeffs, getD_range_map, if_pos hk]

theorem cKernel_getD (l m n : ℕ) (w : ℂ) (hn : 1 ≤ n) (hm : 1 ≤ m) (hnm : n + m - 1 ≤ l)
    (i : ℕ) (hi : i < l) :
    (cKernel l m n w).getD i 0 =
      if i < m then cpowf w (-square_and_half i)
      else if i < l - n + 1 then 0
      else cpowf w (-square_and_half ((l - i : ℕ) : ℤ)) := by
  have hnl : n ≤ l := by omega
  have hml : m ≤ l - n + 1 := by omega
  unfold cKernel
  by_cases h2 : i < l - n + 1
  · rw [List.getD_append _ _ _ _
      (by simp only [List.length_append, List.length_map, List.length_range]; omega)]
    by_cases h1 : i < m
    · rw [List.getD_append _ _ _ _
        (by simp only [List.length_map, List.length_range]; exact h1)]
      rw [getD_range_map, if_pos h1, if_pos h1]
    · rw [List.getD_append_right _ _ _ _
        (by simp only [List.length_map, List.length_range]; omega)]
      rw [List.length_map, List.length_range, getD_range_map,
        if_pos (by omega : i - m < l - n + 1 - m), if_neg h1, if_pos h2]
  · rw [List.getD_append_right _ _ _ _
      (by simp only [List.length_append, List.length_map, List.length_range]; omega)]
    simp only [List.length_append, List.length_map, List.length_range]
    rw [getD_range_map, if_pos (by omega : i - (m + (l - n + 1 - m)) < l - (l - n + 1))]
    rw [if_neg (by omega : ¬ i < m), if_neg h2]
    congr 3
    omega

theorem cKernel_getD_cyc (l m n : ℕ) (w : ℂ) (hn : 1 ≤ n) (hm : 1 ≤ m)
    (hnm : n + m - 1 ≤ l) (k j : ℕ) (hk : k < m) (hj : j < n) :
    (cKernel l m n w).getD ((((k : ℤ) - j) % (l : ℤ)).toNat) 0
      = cpowf w (-square_and_half ((k : ℤ) - j)) := by
  have hl1 : 1 ≤ l := by omega
  have hml : m ≤ l := by omega
  have hnl : n ≤ l := by omega
  by_cases hjk : j ≤ k
  · have hmod : (((k : ℤ) - j) % (l : ℤ)) = ((k - j : ℕ) : ℤ) := by
      rw [Int.emod_eq_of_lt (by omega) (by omega)]
      rw [Nat.cast_sub hjk]
    rw [hmod, Int.toNat_natCast]
    rw [cKernel_getD l m n w hn hm hnm _ (by omega), if_pos (by omega : k - j < m)]
    congr 3
    omega
  · have h1 : ((k : ℤ) - j) % l = ((k : ℤ) - j + l) % l := by
      have h0 := @Int.add_mul_emod_self_left ((k : ℤ) - j) (l : ℤ) 1
      rw [mul_one] at h0
      rw [h0]
    have h2 : ((k : ℤ) - j + l) % l = (k : ℤ) - j + l := Int.emod_eq_of_lt (by omega) (by omega)
    rw [h1, h2]
    have hiz : ((((k : ℤ) - j + l).toNat : ℤ)) = (k : ℤ) - j + l :=
      Int.toNat_of_nonneg (by omega)
    rw [cKernel_getD l m n w hn hm hnm _ (by omega)]
    rw [if_neg (by omega), if_neg (by omega)]
    have harg : ((l - ((k : ℤ) - j + l).toNat : ℕ) : ℤ) = (j : ℤ) - k := by omega
    rw [harg]
    unfold square_and_half
    congr 2
    push_cast
    ring

theorem sah_identity (j k : ℕ) :
    square_and_half j + -square_and_half ((k : ℤ) - j) + square_and_half k
      = ((j * k : ℕ) : ℝ) := by
  unfold square_and_half
  push_cast
  ring

end bluesteins

namespace bluesteins

open Finset in
theorem pipeline_value (l n m : ℕ) (a w : ℂ) (hn : 1 ≤ n) (hm : 1 ≤ m)
    (hnm : n + m - 1 ≤ l) (hw : w ≠ 0) (x : ℕ → ℂ) (k : ℕ) (hk : k < m) :
    (starRingEnd ℂ) (dftPt l (fun i =>
        (starRingEnd ℂ)
          (dftPt l (fun j => if j < n then x j * (yCoeffs n a w).getD j 0 else 0) i *
            dftPt l (fun j => (cKernel l m n w).getD j 0) i)) k) *
      (xCoeffs m w).getD k 0 / (l : ℂ)
      = cztDirect n a w x k := by
  have hl1 : 1 ≤ l := by omega
  have hnl : n ≤ l := by omega
  have hlne : (l : ℂ) ≠ 0 := Nat.cast_ne_zero.mpr (by omega)
  rw [conj_dft_combine l hl1
    (fun j => if j < n then x j * (yCoeffs n a w).getD j 0 else 0)
    (fun j => (cKernel l m n w).getD j 0) k]
  rw [xCoeffs_getD m w k hk]
  have hS : (∑ j ∈ Finset.range l,
      (if j < n then x j * (yCoeffs n a w).getD j 0 else 0) *
        (cKernel l m n w).getD ((((k : ℤ) - j) % (l : ℤ)).toNat) 0)
      = ∑ j ∈ Finset.range n, x j * a ^ (-(j : ℤ)) *
          (cpowf w (square_and_half j) * cpowf w (-square_and_half ((k : ℤ) - j))) := by
    rw [← Finset.sum_subset (Finset.range_subset.mpr hnl)
      (fun j _ hjn => by
        rw [if_neg (by simpa using hjn), zero_mul])]
    refine Finset.sum_congr rfl fun j hj => ?_
    have hjn := Finset.mem_range.mp hj
    rw [if_pos hjn, yCoeffs_getD n a w j hjn,
      cKernel_getD_cyc l m n w hn hm hnm k j hk hjn]
    ring
  rw [hS]
  rw [mul_assoc, mul_div_cancel_left₀ _ hlne, Finset.sum_mul, cztDirect]
  refine Finset.sum_congr rfl fun j _ => ?_
  rw [mul_assoc (x j * a ^ (-(j : ℤ)))]
  rw [cpowf_add w (square_and_half j) (-square_and_half ((k : ℤ) - j))]
  rw [cpowf_add w _ (square_and_half k)]
  rw [sah_identity j k, cpowf_natCast w hw]

end bluesteins

namespace bluesteins

open Finset in
theorem processWithScratch_value {n m : ℕ} {a w : ℂ} {fs : ℕ} {e : BluesteinsAlgorithm}
    (h : mkNew n m a w fs = some e) (hn : 1 ≤ n) (hm : 1 ≤ m) (hmn : m ≤ n)
    (hw : w ≠ 0) (b s : List ℂ) (hb : b.length = n) (hs : s.length = scratchLen e)
    (k : ℕ) (hk : k < m) :
    (processWithScratch e b s).isSome = true ∧
      ((processWithScratch e b s).getD []).getD k 0
        = cztDirect n a w (fun i => b.getD i 0) k := by
  obtain ⟨he, h0, hln⟩ := mkNew_eq_some h
  have hy : e.y_coefficients = yCoeffs n a w := by rw [he]
  have hv : e.v_coefficients = vCoeffs (nextPowerOfTwo (m + n - 1)) m n w := by rw [he]
  have hx : e.x_coefficients = xCoeffs m w := by rw [he]
  have hfl : e.fftLen = nextPowerOfTwo (m + n - 1) := by rw [he]
  have hge := (nextPowerOfTwo_spec (m + n - 1)).2.1
  have hnm1 : n + m - 1 ≤ nextPowerOfTwo (m + n - 1) := by omega
  have hml : m ≤ nextPowerOfTwo (m + n - 1) := by omega
  have hnl : n ≤ nextPowerOfTwo (m + n - 1) := by omega
  have hl1 : 1 ≤ nextPowerOfTwo (m + n - 1) := by omega
  have hylen : e.y_coefficients.length = n := by rw [hy, length_yCoeffs]
  have hxlen : e.x_coefficients.length = m := by rw [hx, length_xCoeffs]
  have hres : processWithScratch e b s =
      some ((List.range b.length).map
        (fun kk => if kk < e.x_coefficients.length then
            (starRingEnd ℂ)
                ((dftList e.fftLen
                  (combinedList e (dftList e.fftLen (expandedList e b)))).getD kk 0) *
              e.x_coefficients.getD kk 0 / (e.fftLen : ℂ)
          else b.getD kk 0)) := by
    unfold processWithScratch
    rw [if_neg (by rw [hb, hylen]; simp), if_neg (by rw [hs]; simp),
      if_pos (by rw [hxlen, hb]; exact hmn)]
  refine ⟨by rw [hres]; rfl, ?_⟩
  rw [hres, Option.getD_some, getD_range_map, if_pos (by omega : k < b.length),
    if_pos (by rw [hxlen]; exact hk)]
  -- reduce the two in-place transforms to `dftPt` applications
  have hcmb : ∀ i, i < nextPowerOfTwo (m + n - 1) →
      (combinedList e (dftList e.fftLen (expandedList e b))).getD i 0
        = (starRingEnd ℂ)
            (dftPt (nextPowerOfTwo (m + n - 1))
                (fun j => if j < n then b.getD j 0 * (yCoeffs n a w).getD j 0 else 0) i *
              dftPt (nextPowerOfTwo (m + n - 1))
                (fun j => (cKernel (nextPowerOfTwo (m + n - 1)) m n w).getD j 0) i) := by
    intro i hi
    rw [combinedList, hfl, getD_range_map, if_pos hi]
    congr 2
    · rw [expandedList, hfl, hy, dftList_map_getD _ _ i hi]
      refine dftPt_congr _ _ _ i fun j hj => ?_
      rw [if_pos hj, length_yCoeffs]
    · rw [hv, vCoeffs, dftList_getD _ _ i
        (by rw [length_cKernel _ _ _ _ hn hnl hnm1]; exact hi)]
  have hD2 : (dftList e.fftLen
      (combinedList e (dftList e.fftLen (expandedList e b)))).getD k 0
      = dftPt (nextPowerOfTwo (m + n - 1)) (fun i =>
          (starRingEnd ℂ)
            (dftPt (nextPowerOfTwo (m + n - 1))
                (fun j => if j < n then b.getD j 0 * (yCoeffs n a w).getD j 0 else 0) i *
              dftPt (nextPowerOfTwo (m + n - 1))
                (fun j => (cKernel (nextPowerOfTwo (m + n - 1)) m n w).getD j 0) i)) k := by
    rw [combinedList, hfl, dftList_map_getD _ _ k (by omega)]
    refine dftPt_congr _ _ _ k fun i hi => ?_
    rw [if_pos hi]
    have := hcmb i hi
    rw [combinedList, hfl, getD_range_map, if_pos hi] at this
    rw [this]
  rw [hD2, hx, hfl]
  exact pipeline_value (nextPowerOfTwo (m + n - 1)) n m a w hn hm hnm1 hw
    (fun i => b.getD i 0) k hk

end bluesteins

namespace naive

theorem getD_set_same (l : List ℂ) (i : ℕ) (v : ℂ) (h : i < l.length) :
    (l.set i v).getD i 0 = v := by
  rw [List.getD_eq_getElem _ _ (by simpa using h)]
  exact List.getElem_set_eq _

theorem getD_set_other (l : List ℂ) (i k : ℕ) (v : ℂ) (h : i ≠ k) :
    (l.set i v).getD k 0 = l.getD k 0 := by
  rw [List.getD_eq_getD_get?, List.getD_eq_getD_get?, List.get?_set_ne v l h]

theorem foldl_set_length (g : ℕ → ℂ → ℂ) (s : List ℂ) (j : ℕ) :
    ((List.range j).foldl (fun l i => l.set i (g i (l.getD i 0))) s).length = s.length := by
  induction j with
  | zero => rfl
  | succ j ih =>
    rw [List.range_succ, List.foldl_append, List.foldl_cons, List.foldl_nil,
      List.length_set, ih]

theorem foldl_set_getD (g : ℕ → ℂ → ℂ) (s : List ℂ) (j : ℕ) (hj : j ≤ s.length) (k : ℕ) :
    ((List.range j).foldl (fun l i => l.set i (g i (l.getD i 0))) s).getD k 0
      = if k < j then g k (s.getD k 0) else s.getD k 0 := by
  induction j with
  | zero => simp
  | succ j ih =>
    have hj' : j ≤ s.length := by omega
    rw [List.range_succ, List.foldl_append, List.foldl_cons, List.foldl_nil]
    by_cases hkj : k = j
    · subst hkj
      rw [getD_set_same _ _ _ (by rw [foldl_set_length]; omega)]
      rw [ih hj', if_neg (by omega), if_pos (by omega)]
    · rw [getD_set_other _ _ _ _ fun hc => hkj hc.symm, ih hj']
      by_cases hlt : k < j
      · rw [if_pos hlt, if_pos (by omega)]
      · rw [if_neg hlt, if_neg (by omega)]

open Finset in
theorem innerLoop_eq (z : ℂ) (b : List ℂ) (size : ℕ) (init : ℂ) :
    innerLoop z b size init
      = init + ∑ j ∈ Finset.range size, b.getD j 0 * z ^ (-(j : ℤ)) := by
  induction size with
  | zero => simp [innerLoop]
  | succ size ih =>
    unfold innerLoop at ih ⊢
    rw [List.range_succ, List.foldl_append, List.foldl_cons, List.foldl_nil, ih,
      Finset.sum_range_succ]
    ring

open Finset in
theorem scratchLoop_getD (e : NaiveCzt) (b s : List ℂ) (hs : e.czt_size ≤ s.length) (k : ℕ) :
    (scratchLoop e b s).getD k 0
      = if k < e.czt_size then
          s.getD k 0 + ∑ j ∈ Finset.range e.czt_size,
            b.getD j 0 * (e.a * e.w ^ (-(k : ℤ))) ^ (-(j : ℤ))
        else s.getD k 0 := by
  have h := foldl_set_getD
    (fun i cur => innerLoop (e.a * e.w ^ (-(i : ℤ))) b e.czt_size cur) s e.czt_size hs k
  rw [scratchLoop]
  rw [h]
  by_cases hk : k < e.czt_size
  · rw [if_pos hk, if_pos hk, innerLoop_eq]
  · rw [if_neg hk, if_neg hk]

theorem copyLoop_getD (size : ℕ) (s b : List ℂ) (hb : size ≤ b.length) (k : ℕ) :
    (copyLoop size s b).getD k 0 = if k < size then s.getD k 0 else b.getD k 0 := by
  have h := foldl_set_getD (fun i _ => s.getD i 0) b size hb k
  rw [copyLoop]
  rw [h]

end naive

namespace bluesteins

theorem mkNew_e11 : mkNew 1 1 1 1 0 = some e11 := rfl

theorem mkNew_e22 : mkNew 2 2 1 1 0 = some e22 := rfl

end bluesteins

/-! ## Claim theorems -/

namespace bluesteins

/-- C3: for every engine built by `BluesteinsAlgorithm::new` for sizes `(N, M)`
with `N, M ≥ 1`, the convolution length `L` — the length the forward plan is
built for and the length of the zero-padded work area (`fftLen`) — is the
smallest power of two `≥ N + M − 1`; in particular `L ≥ N`, `L ≥ M`, and `L`
is a power of two. -/
theorem convolution_length_minimal_pow2 {n m : ℕ} {a w : ℂ} {fs : ℕ}
    {e : BluesteinsAlgorithm} (h : mkNew n m a w fs = some e) (hn : 1 ≤ n) (hm : 1 ≤ m) :
    (∃ k, e.fftLen = 2 ^ k) ∧ n + m - 1 ≤ e.fftLen ∧
      (∀ j, n + m - 1 ≤ 2 ^ j → e.fftLen ≤ 2 ^ j) ∧ n ≤ e.fftLen ∧ m ≤ e.fftLen := by
  obtain ⟨he, -, -⟩ := mkNew_eq_some h
  have hfl : e.fftLen = nextPowerOfTwo (m + n - 1) := by rw [he]
  obtain ⟨hpow, hge, hmin⟩ := nextPowerOfTwo_spec (m + n - 1)
  rw [hfl]
  exact ⟨hpow, by omega, fun j hj => hmin j (by omega), by omega, by omega⟩

/-- Witness for C3 at `N = M = 2`, `A = W = 1`. -/
theorem convolution_length_minimal_pow2_witness :
    (∃ k, e22.fftLen = 2 ^ k) ∧ 2 + 2 - 1 ≤ e22.fftLen ∧
      (∀ j, 2 + 2 - 1 ≤ 2 ^ j → e22.fftLen ≤ 2 ^ j) ∧ 2 ≤ e22.fftLen ∧ 2 ≤ e22.fftLen :=
  convolution_length_minimal_pow2 mkNew_e22 (by norm_num) (by norm_num)

/-- C5 counterexample: construction with `A = 0` (a degenerate contour, here
`N = M = 1`, `W = 1`) succeeds and returns an engine instead of rejecting with
`DegenerateContour` — the source has no validation and no error type at all. -/
theorem construction_accepts_zero_contour : (mkNew 1 1 0 1 0).isSome = true := rfl

/-- C5 (amended): `BluesteinsAlgorithm::new` performs no input validation and
returns no errors; every contour, including `A = 0` or `W = 0`, is accepted.
The only failures are `usize`-underflow panics: construction panics exactly
when `N + M = 0` (in `m + n - 1`) or when `N > L` (in `l - n` inside
`compute_v_coefficients`). -/
theorem construction_no_validation (n m : ℕ) (a w : ℂ) (fs : ℕ) :
    (mkNew n m a w fs).isSome = true ↔
      n + m ≠ 0 ∧ n ≤ nextPowerOfTwo (m + n - 1) := by
  unfold mkNew
  by_cases h0 : n + m = 0
  · rw [if_pos h0]
    simp [h0]
  · rw [if_neg h0]
    by_cases h2 : nextPowerOfTwo (m + n - 1) < n
    · rw [if_pos h2]
      simp only [Option.isSome_none, Bool.false_eq_true, false_iff, not_and]
      intro
      omega
    · rw [if_neg h2]
      simp only [Option.isSome_some, true_iff]
      exact ⟨h0, by omega⟩

/-- C6 (amended): `process_with_scratch` is accepted — returns a result rather
than panicking — iff `buffer.len() = N` (not `≥ max(N, M)`: the code asserts
exact equality), `scratch.len() = get_scratch_len() = fftScratchLen + L`
(again exact), and `M ≤ N` (otherwise the extract loop writes `buffer[0..M)`
out of bounds).  The two length assertions run at entry, before any mutation;
the claimed acceptance of every `buffer.len() ≥ max(N, M)` is refuted by the
counterexample. -/
theorem processWithScratch_accepts_iff {n m : ℕ} {a w : ℂ} {fs : ℕ}
    {e : BluesteinsAlgorithm} (h : mkNew n m a w fs = some e) (b s : List ℂ) :
    (processWithScratch e b s).isSome = true ↔
      b.length = n ∧ s.length = fs + nextPowerOfTwo (m + n - 1) ∧ m ≤ n := by
  obtain ⟨he, -, -⟩ := mkNew_eq_some h
  have hylen : e.y_coefficients.length = n := by rw [he]; exact length_yCoeffs n a w
  have hxlen : e.x_coefficients.length = m := by rw [he]; exact length_xCoeffs m w
  have hsl : scratchLen e = fs + nextPowerOfTwo (m + n - 1) := by rw [scratchLen, he]
  unfold processWithScratch
  simp only [hylen, hxlen, hsl]
  by_cases h1 : b.length = n
  · by_cases h2 : s.length = fs + nextPowerOfTwo (m + n - 1)
    · by_cases h3 : m ≤ b.length
      · rw [if_neg (by omega), if_neg (by omega), if_pos h3]
        simp only [Option.isSome_some, true_iff]
        exact ⟨h1, h2, by omega⟩
      · rw [if_neg (by omega), if_neg (by omega), if_neg h3]
        simp only [Option.isSome_none, Bool.false_eq_true, false_iff, not_and]
        intro hc1 hc2
        omega
    · rw [if_neg (by omega), if_pos h2]
      simp only [Option.isSome_none, Bool.false_eq_true, false_iff, not_and]
      intro hc1 hc2
      omega
  · rw [if_pos h1]
    simp only [Option.isSome_none, Bool.false_eq_true, false_iff, not_and]
    intro hc
    omega

/-- C6 counterexample: an engine with `N = M = 1` and a buffer of length `2`
meets the claimed precondition `buffer.len() ≥ max(N, M)` (and a long-enough
scratch), yet `process_with_scratch` panics, because the code asserts
`buffer.len() == N` exactly. -/
theorem processWithScratch_rejects_larger_buffer :
    2 ≥ max 1 1 ∧ processWithScratch e11 [1, 0] [0] = none := ⟨by norm_num, rfl⟩

/-- Witness for C6 (amended) at the `N = M = 1` engine with singleton buffers. -/
theorem processWithScratch_accepts_iff_witness :
    (processWithScratch e11 [0] [0]).isSome = true ↔
      ([0] : List ℂ).length = 1 ∧
        ([0] : List ℂ).length = 0 + nextPowerOfTwo (1 + 1 - 1) ∧ 1 ≤ 1 :=
  processWithScratch_accepts_iff mkNew_e11 [0] [0]

/-- C9: determinism of `process_with_scratch` — the result is a pure function
of the engine's stored coefficients and the buffer contents; the scratch only
needs the right length, its incoming contents (e.g. garbage left by an earlier
call) never influence the output, so two successive calls on the same engine
with identical input buffers produce identical output. -/
theorem processWithScratch_deterministic (e : BluesteinsAlgorithm)
    (b₁ b₂ s₁ s₂ : List ℂ) (hb : b₁ = b₂) (hs : s₁.length = s₂.length) :
    processWithScratch e b₁ s₁ = processWithScratch e b₂ s₂ := by
  subst hb
  unfold processWithScratch
  rw [hs]

/-- Witness for C9: the same buffer with two different scratch contents of
equal length. -/
theorem processWithScratch_deterministic_witness :
    processWithScratch e11 [1] [5] = processWithScratch e11 [1] [7] :=
  processWithScratch_deterministic e11 [1] [1] [5] [7] rfl rfl

end bluesteins

namespace bluesteins

/-- C2: the expand step of `process_with_scratch` — the two loops that fill the
work area before the first forward transform is applied to it (by definition of
`processWithScratch`, the first `dftList` application acts on `expandedList`) —
produces a length-`L` area with `work[i] = buffer[i] · Y[i]`
(`Y[i] = A⁻ⁱ · W^(i²/2)`) for `i < N` and `work[i] = 0` for `N ≤ i < L`. -/
theorem expand_step_spec {n m : ℕ} {a w : ℂ} {fs : ℕ} {e : BluesteinsAlgorithm}
    (h : mkNew n m a w fs = some e) (b : List ℂ) (i : ℕ) (hi : i < e.fftLen) :
    (expandedList e b).length = e.fftLen ∧
      (expandedList e b).getD i 0 =
        if i < n then b.getD i 0 * (a ^ (-(i : ℤ)) * cpowf w (square_and_half i)) else 0 := by
  obtain ⟨he, -, -⟩ := mkNew_eq_some h
  have hy : e.y_coefficients = yCoeffs n a w := by rw [he]
  refine ⟨by rw [expandedList, List.length_map, List.length_range], ?_⟩
  rw [expandedList, getD_range_map, if_pos hi]
  simp only [hy, length_yCoeffs]
  by_cases hin : i < n
  · rw [if_pos hin, if_pos hin, yCoeffs_getD n a w i hin]
  · rw [if_neg hin, if_neg hin]

/-- Witness for C2 at the `N = M = 2` engine, buffer `[1, 0]`, index `0`. -/
theorem expand_step_spec_witness :
    (expandedList e22 [1, 0]).length = e22.fftLen ∧
      (expandedList e22 [1, 0]).getD 0 0 =
        if 0 < 2 then ([1, 0] : List ℂ).getD 0 0 *
            ((1 : ℂ) ^ (-((0 : ℕ) : ℤ)) * cpowf 1 (square_and_half ((0 : ℕ) : ℤ)))
          else 0 :=
  expand_step_spec mkNew_e22 [1, 0] 0 (by decide)

/-- C4: the convolution kernel built at construction has length `L`, with
`c[i] = W^(−i²/2)` for `i < M`, `c[i] = 0` for `M ≤ i < L−N+1`, and
`c[i] = W^(−(L−i)²/2)` for `L−N+1 ≤ i < L`; and the stored filter spectrum
`V` is exactly the unnormalized forward transform of this kernel, computed
once at construction. -/
theorem kernel_layout_and_spectrum {n m : ℕ} {a w : ℂ} {fs : ℕ}
    {e : BluesteinsAlgorithm} (h : mkNew n m a w fs = some e) (hn : 1 ≤ n) (hm : 1 ≤ m) :
    (cKernel e.fftLen m n w).length = e.fftLen ∧
      (∀ i < e.fftLen, (cKernel e.fftLen m n w).getD i 0 =
        if i < m then cpowf w (-square_and_half i)
        else if i < e.fftLen - n + 1 then 0
        else cpowf w (-square_and_half ((e.fftLen - i : ℕ) : ℤ))) ∧
      e.v_coefficients = dftList e.fftLen (cKernel e.fftLen m n w) ∧
      ∀ k < e.fftLen, e.v_coefficients.getD k 0
        = dftPt e.fftLen (fun j => (cKernel e.fftLen m n w).getD j 0) k := by
  obtain ⟨he, -, -⟩ := mkNew_eq_some h
  have hfl : e.fftLen = nextPowerOfTwo (m + n - 1) := by rw [he]
  have hv : e.v_coefficients = vCoeffs (nextPowerOfTwo (m + n - 1)) m n w := by rw [he]
  have hge := (nextPowerOfTwo_spec (m + n - 1)).2.1
  rw [hfl, hv]
  have hnl2 : n ≤ nextPowerOfTwo (m + n - 1) := by omega
  have hnm2 : n + m - 1 ≤ nextPowerOfTwo (m + n - 1) := by omega
  simp only [vCoeffs]
  exact ⟨length_cKernel _ _ _ _ hn hnl2 hnm2,
    fun i hi => cKernel_getD _ _ _ _ hn hm hnm2 i hi, by trivial,
    fun k hk => dftList_getD _ _ k
      (by rw [length_cKernel _ _ _ _ hn hnl2 hnm2]; exact hk)⟩

/-- Witness for C4 at the `N = M = 2`, `A = W = 1` engine. -/
theorem kernel_layout_and_spectrum_witness :
    (cKernel e22.fftLen 2 2 1).length = e22.fftLen ∧
      (∀ i < e22.fftLen, (cKernel e22.fftLen 2 2 1).getD i 0 =
        if i < 2 then cpowf 1 (-square_and_half i)
        else if i < e22.fftLen - 2 + 1 then 0
        else cpowf 1 (-square_and_half ((e22.fftLen - i : ℕ) : ℤ))) ∧
      e22.v_coefficients = dftList e22.fftLen (cKernel e22.fftLen 2 2 1) ∧
      ∀ k < e22.fftLen, e22.v_coefficients.getD k 0
        = dftPt e22.fftLen (fun j => (cKernel e22.fftLen 2 2 1).getD j 0) k :=
  kernel_layout_and_spectrum mkNew_e22 (by norm_num) (by norm_num)

end bluesteins

namespace bluesteins

/-- C1 (amended): for every engine built for valid `(N, M, A, W)` with
`N, M ≥ 1`, `M ≤ N` and `A, W ≠ 0`, and every buffer of length `N` with a
scratch of length `get_scratch_len()` (the default `process` allocates the
wrong scratch length, see C7, and for `M > N` the call panics, see the
counterexample), the first `M` entries left in the buffer by
`process_with_scratch` equal the direct definition
`X k = ∑ n < N, x n · A⁻ⁿ · Wⁿᵏ` exactly — in particular within the claimed
tolerance `1e-5` on each of the real and imaginary components. -/
theorem process_first_entries_match_direct {n m : ℕ} {a w : ℂ} {fs : ℕ}
    {e : BluesteinsAlgorithm} (h : mkNew n m a w fs = some e) (hn : 1 ≤ n) (hm : 1 ≤ m)
    (hmn : m ≤ n) (ha : a ≠ 0) (hw : w ≠ 0) (b s : List ℂ) (hb : b.length = n)
    (hs : s.length = scratchLen e) (k : ℕ) (hk : k < m) :
    (processWithScratch e b s).isSome = true ∧
      ((processWithScratch e b s).getD []).getD k 0
        = cztDirect n a w (fun i => b.getD i 0) k ∧
      |(((processWithScratch e b s).getD []).getD k 0
          - cztDirect n a w (fun i => b.getD i 0) k).re| < 1e-5 ∧
      |(((processWithScratch e b s).getD []).getD k 0
          - cztDirect n a w (fun i => b.getD i 0) k).im| < 1e-5 := by
  obtain ⟨h1, h2⟩ := processWithScratch_value h hn hm hmn hw b s hb hs k hk
  refine ⟨h1, h2, ?_, ?_⟩ <;>
    rw [h2, sub_self] <;>
    simp <;>
    norm_num

/-- Witness for C1 at `N = M = 1`, `A = W = 1`, buffer `[2]`, scratch `[0]`. -/
theorem process_first_entries_match_direct_witness :
    (processWithScratch e11 [2] [0]).isSome = true ∧
      ((processWithScratch e11 [2] [0]).getD []).getD 0 0
        = cztDirect 1 1 1 (fun i => ([2] : List ℂ).getD i 0) 0 ∧
      |(((processWithScratch e11 [2] [0]).getD []).getD 0 0
          - cztDirect 1 1 1 (fun i => ([2] : List ℂ).getD i 0) 0).re| < 1e-5 ∧
      |(((processWithScratch e11 [2] [0]).getD []).getD 0 0
          - cztDirect 1 1 1 (fun i => ([2] : List ℂ).getD i 0) 0).im| < 1e-5 :=
  process_first_entries_match_direct mkNew_e11 (by norm_num) (by norm_num) (by norm_num)
    one_ne_zero one_ne_zero [2] [0] rfl rfl 0 (by norm_num)

/-- C1 counterexample: the claim fails as stated, in two ways.  First, at the
valid sizes `N = M = 2` (with `A = W = 1`) the `process` entry point panics —
it allocates a scratch of length `buffer.len() = 2` while the engine asserts
`get_scratch_len() = 4` — so it leaves no transform in the buffer.  Second,
for `M > N` (here `N = 1`, `M = 2`) even `process_with_scratch` with a
correctly-sized scratch panics (out-of-bounds write in the extract loop),
although the claim quantifies over all `N, M ≥ 1`. -/
theorem process_first_entries_match_direct_cex :
    ((mkNew 2 2 1 1 0).isSome = true ∧
      Option.bind (mkNew 2 2 1 1 0) (fun e => process e [1, 1]) = none) ∧
    ((mkNew 1 2 1 1 0).isSome = true ∧
      Option.bind (mkNew 1 2 1 1 0) (fun e => processWithScratch e [1] [0, 0]) = none) :=
  ⟨⟨rfl, rfl⟩, ⟨rfl, rfl⟩⟩

/-- C7 (amended): the default `Czt::process` of `src/lib.rs` allocates a
zero-initialized scratch of length `buffer.len()` — not `get_scratch_len()` —
and delegates to `process_with_scratch`; since the Bluestein engine asserts
`scratch.len() == get_scratch_len() = fftScratchLen + L`, `process` panics
whenever `buffer.len() = N` differs from that value, so it does fail for a
scratch-size reason (for the reference engine, whose scratch need is
`czt_size ≤ buffer.len()`, the claimed equivalence does hold, see C10). -/
theorem process_autoscratch_too_small {n m : ℕ} {a w : ℂ} {fs : ℕ}
    {e : BluesteinsAlgorithm} (h : mkNew n m a w fs = some e) (b : List ℂ)
    (hb : b.length = n) (hne : n ≠ fs + nextPowerOfTwo (m + n - 1)) :
    process e b = none := by
  obtain ⟨he, -, -⟩ := mkNew_eq_some h
  have hylen : e.y_coefficients.length = n := by rw [he]; exact length_yCoeffs n a w
  have hsl : scratchLen e = fs + nextPowerOfTwo (m + n - 1) := by rw [scratchLen, he]
  unfold process processWithScratch
  rw [if_neg (by omega), if_pos (by rw [List.length_replicate, hb, hsl]; exact hne)]

/-- Witness for C7 (amended) at the `N = M = 2` engine. -/
theorem process_autoscratch_too_small_witness : process e22 [1, 1] = none :=
  process_autoscratch_too_small mkNew_e22 [1, 1] rfl (by decide)

/-- C7 counterexample: for the Bluestein engine with `N = M = 2` (valid sizes,
buffer meeting the precondition), the default `process` does not succeed — it
panics on the scratch-length assertion — contradicting the claim that
`process` never fails for a scratch-size reason. -/
theorem process_autoscratch_cex :
    (mkNew 2 2 1 1 0).isSome = true ∧
      Option.bind (mkNew 2 2 1 1 0) (fun e => process e [1, 0]) = none :=
  ⟨rfl, rfl⟩

end bluesteins

namespace plan

theorem fromPolar_one (θ : ℝ) : fromPolar 1 θ = Complex.exp ((θ : ℂ) * Complex.I) := by
  rw [Complex.exp_mul_I]
  apply Complex.ext
  · simp [fromPolar, Complex.add_re, Complex.mul_re, Complex.I_re, Complex.I_im,
      Complex.cos_ofReal_re, Complex.sin_ofReal_im]
  · simp [fromPolar, Complex.add_im, Complex.mul_im, Complex.I_re, Complex.I_im,
      Complex.sin_ofReal_re, Complex.cos_ofReal_im]

/-- C8: `plan_zoom_fft(N, start, end)` derives `A` as the unit-circle point at
angle `2π·start` and `W` as the unit-magnitude complex number with phase
`−2π·(end−start)/(N−1)`, and returns exactly the engine `plan_czt_forward`
builds for those parameters (with `M = N`: the planner engine uses the single
size `czt_len`). -/
theorem plan_zoom_fft_spec (czt_len : ℕ) (s e : ℝ) (h : 2 ≤ czt_len) :
    plan_zoom_fft czt_len s e =
      plan_czt_forward czt_len
        (Complex.exp (((2 * Real.pi * s : ℝ) : ℂ) * Complex.I))
        (Complex.exp (((-(2 * Real.pi * (e - s)) / ((czt_len : ℝ) - 1) : ℝ) : ℂ) *
          Complex.I)) ∧
      Complex.abs (Complex.exp (((2 * Real.pi * s : ℝ) : ℂ) * Complex.I)) = 1 ∧
      Complex.abs (Complex.exp (((-(2 * Real.pi * (e - s)) / ((czt_len : ℝ) - 1) : ℝ) : ℂ) *
        Complex.I)) = 1 := by
  refine ⟨?_, Complex.abs_exp_ofReal_mul_I _, Complex.abs_exp_ofReal_mul_I _⟩
  unfold plan_zoom_fft
  rw [fromPolar_one, fromPolar_one]
  have harg : (-(2 * Real.pi) * (e - s) / ((czt_len - 1 : ℕ) : ℝ))
      = -(2 * Real.pi * (e - s)) / ((czt_len : ℝ) - 1) := by
    rw [Nat.cast_sub (by omega : 1 ≤ czt_len), Nat.cast_one]
    ring
  rw [harg]

/-- Witness for C8 at `N = 2`, `start = 0`, `end = 1`. -/
theorem plan_zoom_fft_spec_witness :
    plan_zoom_fft 2 0 1 =
      plan_czt_forward 2
        (Complex.exp (((2 * Real.pi * 0 : ℝ) : ℂ) * Complex.I))
        (Complex.exp (((-(2 * Real.pi * ((1 : ℝ) - 0)) / (((2 : ℕ) : ℝ) - 1) : ℝ) : ℂ) *
          Complex.I)) ∧
      Complex.abs (Complex.exp (((2 * Real.pi * 0 : ℝ) : ℂ) * Complex.I)) = 1 ∧
      Complex.abs
        (Complex.exp (((-(2 * Real.pi * ((1 : ℝ) - 0)) / (((2 : ℕ) : ℝ) - 1) : ℝ) : ℂ) *
          Complex.I)) = 1 :=
  plan_zoom_fft_spec 2 0 1 (by norm_num)

end plan

namespace naive

open Finset in
/-- C10: `NaiveCzt::process_with_scratch` accumulates into the caller-supplied
scratch without clearing it: on a buffer holding `x` and an incoming scratch
`s` of length `czt_size`, the call succeeds and leaves
`buffer[k] = s[k] + ∑ n < czt_size, x n · (A·W⁻ᵏ)⁻ⁿ` for every
`k < czt_size`; the result is the chirp-z transform itself only when `s` is
all zeros (in particular `s[k] = 0` makes the first summand vanish), which the
default `process` arranges by allocating a zeroed scratch of length
`buffer.len() ≥ czt_size`. -/
theorem naive_accumulates_scratch (e : NaiveCzt) (b s : List ℂ)
    (hb : e.czt_size ≤ b.length) (hs : s.length = e.czt_size) (k : ℕ)
    (hk : k < e.czt_size) :
    processWithScratch e b s = some (naiveRun e b s) ∧
      (naiveRun e b s).getD k 0 =
        s.getD k 0 + ∑ n ∈ Finset.range e.czt_size,
          b.getD n 0 * (e.a * e.w ^ (-(k : ℤ))) ^ (-(n : ℤ)) := by
  have hs' : e.czt_size ≤ s.length := by omega
  refine ⟨by rw [processWithScratch, if_pos ⟨hb, hs'⟩], ?_⟩
  rw [naiveRun, copyLoop_getD _ _ _ hb k, if_pos hk, scratchLoop_getD e b s hs' k,
    if_pos hk]

/-- Witness for C10: `czt_size = 1`, `a = w = 1`, buffer `[2]`, scratch `[3]`. -/
theorem naive_accumulates_scratch_witness :
    processWithScratch (NaiveCzt.new 1 1 1) [2] [3]
        = some (naiveRun (NaiveCzt.new 1 1 1) [2] [3]) ∧
      (naiveRun (NaiveCzt.new 1 1 1) [2] [3]).getD 0 0 =
        ([3] : List ℂ).getD 0 0 + ∑ n ∈ Finset.range (NaiveCzt.new 1 1 1).czt_size,
          ([2] : List ℂ).getD n 0 *
            ((NaiveCzt.new 1 1 1).a * (NaiveCzt.new 1 1 1).w ^ (-((0 : ℕ) : ℤ))) ^
              (-(n : ℤ)) :=
  naive_accumulates_scratch (NaiveCzt.new 1 1 1) [2] [3] (by decide) rfl 0 (by decide)

end naive
